import Mathlib

/-!
Verification of the incremental n-gram search core of the caniuse.rs
repository.

The build-time indexer (`build.rs`: `generate_data`, `add_feature_ngrams`)
is embedded as pure Lean functions over byte strings (`List Nat`), with the
Rust `BTreeMap<Vec<u8>, BTreeSet<u16>>` accumulator represented as an
association list whose keys are kept in strictly ascending lexicographic
order and whose postings lists are kept strictly ascending.  Rust panics
(`assert!`, `unreachable!`, out-of-bounds indexing) are represented by the
`Except String` monad.

The runtime incremental-search session (`src/components/index.rs`,
`Index::change`) is embedded as a pure state-transition function.  The
helper functions it calls (`extract_search_terms`, `FeatureData::does_match`)
live in a search module that is not part of the available sources; they are
modelled from the specification and marked as such in their doc comments.
-/

namespace CanIUse

/-- Bytes are modelled as natural numbers (in practice `0 ≤ b < 256`). -/
abbrev Byte := Nat

/-- A byte string (the contents of a Rust `&str`/`String`, as `as_bytes()`). -/
abbrev ByteStr := List Byte

/- ### Generic list machinery: windows, ordered maps, sorted postings -/

/-- `windows n l` lists all contiguous length-`n` windows of `l`, in order,
mirroring Rust's `slice::windows(n)` for `n ≥ 1` (no windows when the slice
is shorter than `n`). -/
def windows (n : Nat) : List α → List (List α)
  | [] => []
  | a :: rest =>
    if n ≤ (a :: rest).length then (a :: rest).take n :: windows n rest else []

/-- Strict lexicographic order on byte strings, the ordering of
`BTreeMap<Vec<u8>, _>` keys. -/
def keyLt : ByteStr → ByteStr → Bool
  | [], [] => false
  | [], _ :: _ => true
  | _ :: _, [] => false
  | a :: as, b :: bs => decide (a < b) || (decide (a = b) && keyLt as bs)

/-- Insert a feature index into a strictly ascending postings list,
mirroring `BTreeSet<u16>::insert` (duplicates are dropped). -/
def insertSorted (i : Nat) : List Nat → List Nat
  | [] => [i]
  | j :: rest =>
    if i < j then i :: j :: rest
    else if i = j then j :: rest
    else j :: insertSorted i rest

/-- The build-time accumulator: an association list from gram to postings,
kept in strictly ascending key order (the contents of a
`BTreeMap<Vec<u8>, BTreeSet<u16>>`). -/
abbrev GramIndex := List (ByteStr × List Nat)

/-- `index.entry(k).or_default().insert(i)` on the ordered-map
representation: find the slot for key `k` (creating it with an empty
postings set if absent) and insert `i` into its postings. -/
def mapInsert (k : ByteStr) (i : Nat) : GramIndex → GramIndex
  | [] => [(k, [i])]
  | (k', v) :: rest =>
    if keyLt k k' then (k, [i]) :: (k', v) :: rest
    else if k = k' then (k', insertSorted i v) :: rest
    else (k', v) :: mapInsert k i rest

/-- Postings list stored for gram `g` (empty when the gram is absent). -/
def lookupGram (g : ByteStr) : GramIndex → List Nat
  | [] => []
  | (k, v) :: rest => if k = g then v else lookupGram g rest

/-- Entry stored for gram `g`, distinguishing absence from emptiness. -/
def findEntry (g : ByteStr) : GramIndex → Option (List Nat)
  | [] => none
  | (k, v) :: rest => if k = g then some v else findEntry g rest

/- ### Corpus data model (`build.rs` input structures) -/

/-- Release channel (`Channel` in `build.rs`); `stable` is the serde
default. -/
inductive Channel where
  | stable
  | beta
  | nightly
deriving DecidableEq, Repr

/-- `VersionData` from `build.rs`. -/
structure VersionData where
  number : ByteStr
  channel : Channel := Channel.stable
  blog_post_path : Option ByteStr := none
  gh_milestone_id : Option Nat := none
deriving DecidableEq, Repr

/-- `FeatureData` from `build.rs`.  The searchable fields are `title`,
`flag` and `items`; the remaining fields are opaque link/id metadata that
the indexer never reads. -/
structure FeatureData where
  title : ByteStr
  flag : Option ByteStr := none
  slug : Option ByteStr := none
  rfc_id : Option Nat := none
  impl_pr_id : Option Nat := none
  tracking_issue_id : Option Nat := none
  stabilization_pr_id : Option Nat := none
  doc_path : Option ByteStr := none
  edition_guide_path : Option ByteStr := none
  unstable_book_path : Option ByteStr := none
  items : List ByteStr := []
deriving DecidableEq, Repr

/-- `FeatureList` from `build.rs`: an optional release header plus the
features of that release. -/
structure FeatureList where
  version : Option VersionData := none
  features : List FeatureData := []
deriving DecidableEq, Repr

/-- `FeatureToml` from `build.rs`: the whole configuration input. -/
structure FeatureToml where
  versions : List FeatureList
  unstable : FeatureList
deriving DecidableEq, Repr

/- ### The index builder (`build.rs`) -/

/-- `byte.is_ascii_graphic() && byte != b'`'` — the predicate a byte must
satisfy to participate in a gram (printable ASCII `0x21`–`0x7E`, backtick
`0x60` excluded). -/
def qualifiesByte (b : Byte) : Bool :=
  33 ≤ b && b ≤ 126 && b != 96

/-- The searchable fields of a feature, in the order `add_feature_ngrams`
collects them: title, then the flag if present, then the items. -/
def searchStrings (f : FeatureData) : List ByteStr :=
  f.title :: ((match f.flag with | some fl => [fl] | none => []) ++ f.items)

/-- Record index `idx` under every gram of `gs` whose bytes all qualify
(the inner loop of `add_feature_ngrams`). -/
def addGrams (idx : Nat) (gs : List ByteStr) (m : GramIndex) : GramIndex :=
  gs.foldl (fun m g => if g.all qualifiesByte then mapInsert g idx m else m) m

/-- `add_feature_ngrams` from `build.rs`: slide a width-`n` window over
every searchable field of `feature` and record each fully qualifying gram
for feature index `idx`. -/
def add_feature_ngrams (n : Nat) (index : GramIndex) (feature : FeatureData)
    (idx : Nat) : GramIndex :=
  (searchStrings feature).foldl (fun m s => addGrams idx (windows n s) m) index

/-- The running state of `generate_data`'s feature loop: the three gram
accumulators, the version list collected so far, and `feat_idx`. -/
structure BuildAcc where
  monogram_index : GramIndex
  bigram_index : GramIndex
  trigram_index : GramIndex
  versions : List VersionData
  feat_idx : Nat
deriving DecidableEq, Repr

/-- The loop body of `generate_data` for one feature: run the `assert!`
that no item contains a backtick (a failing assert is a Rust panic,
modelled as `Except.error`), then add the feature's 1-, 2- and 3-grams. -/
def processFeature (acc : BuildAcc) (f : FeatureData) : Except String BuildAcc :=
  if f.items.any (fun i => i.contains 96) then
    Except.error "items are always wrapped in code blocks and should not contain any backtick."
  else
    Except.ok { acc with
      monogram_index := add_feature_ngrams 1 acc.monogram_index f acc.feat_idx,
      bigram_index := add_feature_ngrams 2 acc.bigram_index f acc.feat_idx,
      trigram_index := add_feature_ngrams 3 acc.trigram_index f acc.feat_idx,
      feat_idx := acc.feat_idx + 1 }

/-- The loop body of `generate_data` for one `FeatureList`: record the
release header, if any, then process each feature. -/
def processVersion (acc : BuildAcc) (v : FeatureList) : Except String BuildAcc :=
  let acc := match v.version with
    | some d => { acc with versions := acc.versions ++
        [{ number := d.number, channel := d.channel,
           blog_post_path := d.blog_post_path,
           gh_milestone_id := d.gh_milestone_id }] }
    | none => acc
  v.features.foldlM processFeature acc

/-- The initial accumulator of `generate_data`: three empty maps, no
versions, `feat_idx = 0`. -/
def initAcc : BuildAcc := ⟨[], [], [], [], 0⟩

/-- The accumulation phase of `generate_data`: the `for v in
feature_toml.versions` loop.  Note that only `feature_toml.versions` is
iterated; the `unstable` feature list is never visited. -/
def buildIndexes (t : FeatureToml) : Except String BuildAcc :=
  t.versions.foldlM processVersion initAcc

/-- Flattening of the monogram accumulator: `let byte = k[0];` — indexing
an empty key would be a Rust panic. -/
def flattenMonogram (m : GramIndex) : Except String (List (Byte × List Nat)) :=
  m.mapM (fun kv => match kv.1 with
    | b :: _ => Except.ok (b, kv.2)
    | [] => Except.error "index out of bounds")

/-- Flattening of the bigram accumulator: the `match &k[..] { &[b1, b2] =>
…, _ => unreachable!() }` step. -/
def flattenBigram (m : GramIndex) : Except String (List ((Byte × Byte) × List Nat)) :=
  m.mapM (fun kv => match kv.1 with
    | [b1, b2] => Except.ok ((b1, b2), kv.2)
    | _ => Except.error "internal error: entered unreachable code")

/-- Flattening of the trigram accumulator: the `match &k[..] { &[b1, b2,
b3] => …, _ => unreachable!() }` step. -/
def flattenTrigram (m : GramIndex) :
    Except String (List ((Byte × Byte × Byte) × List Nat)) :=
  m.mapM (fun kv => match kv.1 with
    | [b1, b2, b3] => Except.ok ((b1, b2, b3), kv.2)
    | _ => Except.error "internal error: entered unreachable code")

/-- The content of the token stream `generate_data` emits: the version
records and the three flattened index entry sequences, in emission order. -/
structure GenOut where
  versions : List VersionData
  monograms : List (Byte × List Nat)
  bigrams : List ((Byte × Byte) × List Nat)
  trigrams : List ((Byte × Byte × Byte) × List Nat)
deriving DecidableEq, Repr

/-- `generate_data` from `build.rs`: accumulate the three gram indexes over
all features of all version lists, then flatten each accumulator into the
emitted entry sequence. -/
def generate_data (t : FeatureToml) : Except String GenOut := do
  let acc ← buildIndexes t
  let mono ← flattenMonogram acc.monogram_index
  let bi ← flattenBigram acc.bigram_index
  let tri ← flattenTrigram acc.trigram_index
  Except.ok ⟨acc.versions, mono, bi, tri⟩

/-- The features `generate_data` iterates, in iteration order: the features
of the version lists, concatenated.  Feature `i` of this list is processed
with `feat_idx = i`. -/
def allFeatures (t : FeatureToml) : List FeatureData :=
  (t.versions.map FeatureList.features).flatten

/-- The width-`n` accumulator of a build state (`n ∈ {1,2,3}`). -/
def nthIndex (acc : BuildAcc) (n : Nat) : GramIndex :=
  if n = 1 then acc.monogram_index
  else if n = 2 then acc.bigram_index
  else acc.trigram_index

/- ### Runtime search (`src/components/index.rs` and the search module) -/

/-- ASCII lower-casing of one byte (`u8::to_ascii_lowercase`). -/
def toLowerByte (b : Byte) : Byte :=
  if 65 ≤ b ∧ b ≤ 90 then b + 32 else b

/-- Whitespace bytes recognised when splitting a query into terms. -/
def isWhitespaceByte (b : Byte) : Bool :=
  b = 32 || b = 9 || b = 10 || b = 12 || b = 13

/-- Case-insensitive containment of `t` in `s` (ASCII folding on both
sides), the substring test of the Matcher. -/
def occursCI (t s : ByteStr) : Bool :=
  decide ((t.map toLowerByte) <:+: (s.map toLowerByte))

/-- Modelled from the spec: `FeatureData::does_match` from the search
module, which is not among the available sources.  Per sections 4.5 and 8,
a feature matches a term list when every term occurs case-insensitively as
a substring of at least one of its searchable fields. -/
def does_match (f : FeatureData) (terms : List ByteStr) : Bool :=
  terms.all (fun t => (searchStrings f).any (fun s => occursCI t s))

/-- Helper for `extract_search_terms`: split a byte string at whitespace
bytes into (possibly empty) chunks. -/
def splitWsAux : List Byte → List Byte → List ByteStr
  | [], cur => [cur.reverse]
  | b :: rest, cur =>
    if isWhitespaceByte b then cur.reverse :: splitWsAux rest []
    else splitWsAux rest (b :: cur)

/-- Modelled from the spec: `extract_search_terms` from the search module,
which is not among the available sources.  Per section 4.3, the raw query
is split on whitespace, empty tokens are discarded and the remaining terms
are ASCII-lowercased; an empty or all-whitespace query yields the empty
term sequence. -/
def extract_search_terms (s : ByteStr) : List ByteStr :=
  ((splitWsAux s []).filter (fun t => !t.isEmpty)).map (List.map toLowerByte)

/-- The search-relevant state of the `Index` component
(`current_search_terms` and `current_search_results`). -/
structure SessionState where
  current_search_terms : List ByteStr
  current_search_results : List FeatureData
deriving DecidableEq, Repr

/-- The cache-reuse condition of `Index::change`: the previous term list is
non-empty, no longer than the new one, and either equals the corresponding
prefix of the new list or differs only in that the last previous term is a
prefix of the corresponding new term. -/
def isRefinement (prev q : List ByteStr) : Bool :=
  !prev.isEmpty && decide (prev.length ≤ q.length) &&
    (decide (prev = q.take prev.length) ||
      (decide (prev.take (prev.length - 1) = q.take (prev.length - 1)) &&
        List.isPrefixOf (prev.getD (prev.length - 1) []) (q.getD (prev.length - 1) [])))

/-- The search-relevant part of `Index::change`: pick the search domain
(the cached result set on refinement, the whole corpus otherwise), filter
it with `does_match` unless the new term list is empty, and store the new
terms and results. -/
def change (corpus : List FeatureData) (st : SessionState)
    (search_terms : List ByteStr) : SessionState :=
  let features_to_search :=
    if isRefinement st.current_search_terms search_terms then
      st.current_search_results
    else corpus
  let results :=
    if search_terms.isEmpty then []
    else features_to_search.filter (fun f => does_match f search_terms)
  { current_search_terms := search_terms, current_search_results := results }

/- ### Candidate retriever (spec section 4.4; no implementation in the
available sources uses the generated indexes) -/

/-- Ascending-order merge intersection of two sorted postings lists. -/
def interSorted : List Nat → List Nat → List Nat
  | [], _ => []
  | _ :: _, [] => []
  | a :: as, b :: bs =>
    if a < b then interSorted as (b :: bs)
    else if b < a then interSorted (a :: as) bs
    else a :: interSorted as bs
termination_by x y => x.length + y.length

/-- Modelled from the spec: the Candidate Retriever of section 4.4, whose
implementation is not among the available sources.  For a term, choose the
largest gram width `w ≤ min(3, length of term)`, slide `w`-wide windows
across the term and intersect the postings lists the indexes store for
those grams. -/
def candidates (acc : BuildAcc) (t : ByteStr) : List Nat :=
  let w := min 3 t.length
  let idx := nthIndex acc w
  match windows w t with
  | [] => []
  | g :: gs => gs.foldl (fun s g => interSorted s (lookupGram g idx)) (lookupGram g idx)

/- ### Lemmas: windows -/

/-- A list is a width-`n` window of `l` exactly when it has length `n` and
occurs contiguously in `l` (for `n ≥ 1`). -/
theorem mem_windows_iff {n : Nat} (hn : 1 ≤ n) :
    ∀ {l g : List α}, g ∈ windows n l ↔ g.length = n ∧ g <:+: l := by
  intro l
  induction l with
  | nil =>
    intro g
    constructor
    · intro h
      simp [windows] at h
    · rintro ⟨hlen, hinf⟩
      rw [List.infix_nil] at hinf
      subst hinf
      simp at hlen
      omega
  | cons a rest ih =>
    intro g
    rw [windows]
    by_cases hle : n ≤ (a :: rest).length
    · simp only [if_pos hle, List.mem_cons]
      constructor
      · rintro (rfl | hmem)
        · refine ⟨?_, (List.take_prefix n (a :: rest)).isInfix⟩
          rw [List.length_take]
          simp only [List.length_cons] at hle ⊢
          omega
        · obtain ⟨hlen, hinf⟩ := ih.mp hmem
          exact ⟨hlen, List.infix_cons hinf⟩
      · rintro ⟨hlen, hinf⟩
        rcases List.infix_cons_iff.mp hinf with hpre | hinf'
        · left
          rw [List.prefix_iff_eq_take.mp hpre, hlen]
        · right
          exact ih.mpr ⟨hlen, hinf'⟩
    · simp only [if_neg hle, List.not_mem_nil, false_iff, not_and]
      intro hlen hinf
      exact hle (hlen ▸ hinf.length_le)

/- ### Lemmas: the lexicographic key order -/

theorem keyLt_irrefl : ∀ a : ByteStr, keyLt a a = false := by
  intro a
  induction a with
  | nil => rfl
  | cons x xs ih => simp [keyLt, ih]

theorem keyLt_nil : ∀ b : ByteStr, keyLt b [] = false := by
  rintro (_ | ⟨y, ys⟩) <;> rfl

theorem keyLt_trans : ∀ {a b c : ByteStr},
    keyLt a b = true → keyLt b c = true → keyLt a c = true := by
  intro a
  induction a with
  | nil =>
    rintro b (_ | ⟨z, zs⟩) hab hbc
    · rw [keyLt_nil] at hbc
      exact Bool.noConfusion hbc
    · rfl
  | cons x xs ih =>
    rintro (_ | ⟨y, ys⟩) (_ | ⟨z, zs⟩) hab hbc
    · rw [keyLt_nil] at hab
      exact Bool.noConfusion hab
    · rw [keyLt_nil] at hab
      exact Bool.noConfusion hab
    · rw [keyLt_nil] at hbc
      exact Bool.noConfusion hbc
    · rw [keyLt, Bool.or_eq_true, Bool.and_eq_true, decide_eq_true_eq,
        decide_eq_true_eq] at hab hbc ⊢
      rcases hab with hab | ⟨rfl, hab⟩ <;> rcases hbc with hbc | ⟨rfl, hbc⟩
      · exact Or.inl (hab.trans hbc)
      · exact Or.inl hab
      · exact Or.inl hbc
      · exact Or.inr ⟨rfl, ih hab hbc⟩

theorem keyLt_cases : ∀ a b : ByteStr,
    keyLt a b = true ∨ a = b ∨ keyLt b a = true := by
  intro a
  induction a with
  | nil => rintro (_ | ⟨y, ys⟩) <;> simp [keyLt]
  | cons x xs ih =>
    rintro (_ | ⟨y, ys⟩)
    · simp [keyLt]
    · rcases Nat.lt_trichotomy x y with h | rfl | h
      · exact Or.inl (by simp [keyLt, h])
      · rcases ih ys with h' | rfl | h'
        · exact Or.inl (by simp [keyLt, h'])
        · exact Or.inr (Or.inl rfl)
        · exact Or.inr (Or.inr (by simp [keyLt, h']))
      · exact Or.inr (Or.inr (by simp [keyLt, h]))

theorem keyLt_asymm {a b : ByteStr} (h : keyLt a b = true) : keyLt b a = false := by
  by_contra hba
  rw [Bool.not_eq_false] at hba
  have := keyLt_trans h hba
  rw [keyLt_irrefl] at this
  exact Bool.false_ne_true this

theorem ne_of_keyLt {a b : ByteStr} (h : keyLt a b = true) : a ≠ b := by
  rintro rfl
  rw [keyLt_irrefl] at h
  exact Bool.false_ne_true h

/- ### Lemmas: sorted postings lists -/

theorem mem_insertSorted {i j : Nat} :
    ∀ {s : List Nat}, j ∈ insertSorted i s ↔ j = i ∨ j ∈ s := by
  intro s
  induction s with
  | nil => simp [insertSorted]
  | cons k rest ih =>
    rw [insertSorted]
    split
    · simp only [List.mem_cons]
    · split
      · next h1 h2 =>
        subst h2
        simp only [List.mem_cons]
        tauto
      · simp only [List.mem_cons, ih]
        tauto

theorem insertSorted_pairwise {i : Nat} :
    ∀ {s : List Nat}, List.Pairwise (· < ·) s →
      List.Pairwise (· < ·) (insertSorted i s) := by
  intro s
  induction s with
  | nil => intro _; simp [insertSorted]
  | cons k rest ih =>
    intro hs
    rw [List.pairwise_cons] at hs
    obtain ⟨hk, hrest⟩ := hs
    rw [insertSorted]
    split
    · next h1 =>
      rw [List.pairwise_cons]
      refine ⟨?_, List.pairwise_cons.mpr ⟨hk, hrest⟩⟩
      intro a ha
      rcases List.mem_cons.mp ha with rfl | ha'
      · exact h1
      · exact h1.trans (hk a ha')
    · split
      · next h1 h2 =>
        subst h2
        exact List.pairwise_cons.mpr ⟨hk, hrest⟩
      · next h1 h2 =>
        rw [List.pairwise_cons]
        refine ⟨?_, ih hrest⟩
        intro a ha
        rcases mem_insertSorted.mp ha with rfl | ha'
        · omega
        · exact hk a ha'

/- ### Lemmas: the ordered-map accumulator -/

/-- Keys of the accumulator are strictly ascending (the `BTreeMap`
representation invariant). -/
def SortedKeys (m : GramIndex) : Prop :=
  List.Pairwise (fun a b => keyLt a.1 b.1 = true) m

/-- Every postings list of the accumulator is strictly ascending (the
`BTreeSet` representation invariant). -/
def PostingsSorted (m : GramIndex) : Prop :=
  ∀ kv ∈ m, List.Pairwise (· < ·) kv.2

/-- Every key of the accumulator has length `n`. -/
def KeysLen (n : Nat) (m : GramIndex) : Prop :=
  ∀ kv ∈ m, kv.1.length = n

theorem lookupGram_eq_nil_of_lt {g : ByteStr} :
    ∀ {m : GramIndex}, (∀ kv ∈ m, keyLt g kv.1 = true) → lookupGram g m = [] := by
  intro m
  induction m with
  | nil => intro _; rfl
  | cons kv rest ih =>
    intro h
    obtain ⟨k, v⟩ := kv
    rw [lookupGram]
    rw [if_neg, ih]
    · intro kv' h'
      exact h kv' (List.mem_cons_of_mem _ h')
    · intro hk
      subst hk
      exact ne_of_keyLt (h (k, v) (List.mem_cons_self _ _)) rfl

/-- Every entry of `mapInsert k i m` either has key `k` or is an entry
of `m` (possibly with grown postings at key `k`). -/
theorem mem_mapInsert_imp {k : ByteStr} {i : Nat} :
    ∀ {m : GramIndex} {kv : ByteStr × List Nat}, kv ∈ mapInsert k i m →
      kv.1 = k ∨ kv ∈ m := by
  intro m
  induction m with
  | nil =>
    intro kv h
    rcases List.mem_cons.mp h with rfl | h'
    · exact Or.inl rfl
    · cases h'
  | cons kv₀ rest ih =>
    intro kv h
    obtain ⟨k'', v''⟩ := kv₀
    rw [mapInsert] at h
    split at h
    · rcases List.mem_cons.mp h with rfl | h'
      · exact Or.inl rfl
      · exact Or.inr h'
    · split at h
      · next hlt heq =>
        rcases List.mem_cons.mp h with rfl | h'
        · exact Or.inl heq.symm
        · exact Or.inr (List.mem_cons_of_mem _ h')
      · rcases List.mem_cons.mp h with rfl | h'
        · exact Or.inr (List.mem_cons_self _ _)
        · rcases ih h' with h3 | h3
          · exact Or.inl h3
          · exact Or.inr (List.mem_cons_of_mem _ h3)

theorem mem_lookupGram_mapInsert {k : ByteStr} {i : Nat} :
    ∀ {m : GramIndex}, SortedKeys m → ∀ {g : ByteStr} {j : Nat},
      (j ∈ lookupGram g (mapInsert k i m) ↔ (g = k ∧ j = i) ∨ j ∈ lookupGram g m) := by
  intro m
  induction m with
  | nil =>
    intro _ g j
    rw [mapInsert, lookupGram, lookupGram]
    by_cases hg : k = g
    · subst hg
      simp
    · rw [if_neg hg, lookupGram]
      constructor
      · intro h
        cases h
      · rintro (⟨rfl, _⟩ | h)
        · exact absurd rfl hg
        · cases h
  | cons kv rest ih =>
    intro hSK g j
    obtain ⟨k', v⟩ := kv
    rw [SortedKeys, List.pairwise_cons] at hSK
    obtain ⟨hk', hrest⟩ := hSK
    rw [mapInsert]
    split
    · next hlt =>
      -- new least key: `(k, [i])` is prepended
      rw [lookupGram]
      by_cases hg : k = g
      · subst hg
        rw [if_pos rfl]
        have hnil : lookupGram k ((k', v) :: rest) = [] := by
          apply lookupGram_eq_nil_of_lt
          intro kv' h'
          rcases List.mem_cons.mp h' with rfl | h''
          · exact hlt
          · exact keyLt_trans hlt (hk' kv' h'')
        rw [hnil]
        simp
      · rw [if_neg hg]
        constructor
        · intro h
          exact Or.inr h
        · rintro (⟨rfl, _⟩ | h)
          · exact absurd rfl hg
          · exact h
    · split
      · next hlt heq =>
        -- key already present: postings are extended in place
        subst heq
        rw [lookupGram, lookupGram]
        by_cases hg : k = g
        · subst hg
          rw [if_pos rfl, if_pos rfl, mem_insertSorted]
          tauto
        · rw [if_neg hg, if_neg hg]
          constructor
          · intro h
            exact Or.inr h
          · rintro (⟨rfl, _⟩ | h)
            · exact absurd rfl hg
            · exact h
      · next hlt hne =>
        -- recurse past the head entry
        rw [lookupGram, lookupGram]
        by_cases hg : k' = g
        · subst hg
          rw [if_pos rfl, if_pos rfl]
          constructor
          · intro h
            exact Or.inr h
          · rintro (⟨heq2, _⟩ | h)
            · exact absurd heq2.symm hne
            · exact h
        · rw [if_neg hg, if_neg hg]
          exact ih hrest

theorem mapInsert_sortedKeys {k : ByteStr} {i : Nat} :
    ∀ {m : GramIndex}, SortedKeys m → SortedKeys (mapInsert k i m) := by
  intro m
  induction m with
  | nil =>
    intro _
    simp [mapInsert, SortedKeys]
  | cons kv rest ih =>
    intro hSK
    obtain ⟨k', v⟩ := kv
    rw [SortedKeys, mapInsert]
    rw [SortedKeys, List.pairwise_cons] at hSK
    obtain ⟨hk', hrest⟩ := hSK
    split
    · next hlt =>
      rw [List.pairwise_cons]
      constructor
      · intro kv' h'
        rcases List.mem_cons.mp h' with rfl | h''
        · exact hlt
        · exact keyLt_trans hlt (hk' kv' h'')
      · exact List.pairwise_cons.mpr ⟨hk', hrest⟩
    · split
      · next hlt heq =>
        subst heq
        exact List.pairwise_cons.mpr ⟨hk', hrest⟩
      · next hlt hne =>
        rw [List.pairwise_cons]
        constructor
        · intro kv' h'
          rcases mem_mapInsert_imp h' with hk | hmem'
          · rw [hk]
            rcases keyLt_cases k' k with h3 | h3 | h3
            · exact h3
            · exact absurd h3.symm hne
            · rw [h3] at hlt
              exact absurd rfl hlt
          · exact hk' kv' hmem'
        · exact ih hrest

theorem mapInsert_postingsSorted {k : ByteStr} {i : Nat} :
    ∀ {m : GramIndex}, PostingsSorted m → PostingsSorted (mapInsert k i m) := by
  intro m
  induction m with
  | nil =>
    intro _
    intro kv h
    rcases List.mem_cons.mp h with rfl | h'
    · simp
    · cases h'
  | cons kv₀ rest ih =>
    intro hPS
    obtain ⟨k', v⟩ := kv₀
    rw [mapInsert]
    have hv : List.Pairwise (· < ·) v := hPS (k', v) (List.mem_cons_self _ _)
    have hrest : PostingsSorted rest := by
      intro kv h
      exact hPS kv (List.mem_cons_of_mem _ h)
    split
    · intro kv h
      rcases List.mem_cons.mp h with rfl | h'
      · simp
      · exact hPS kv h'
    · split
      · intro kv h
        rcases List.mem_cons.mp h with rfl | h'
        · exact insertSorted_pairwise hv
        · exact hrest kv h'
      · intro kv h
        rcases List.mem_cons.mp h with rfl | h'
        · exact hv
        · exact ih hrest kv h'

theorem mapInsert_keysLen {n : Nat} {k : ByteStr} {i : Nat} (hk : k.length = n) :
    ∀ {m : GramIndex}, KeysLen n m → KeysLen n (mapInsert k i m) := by
  intro m
  induction m with
  | nil =>
    intro _ kv h
    rcases List.mem_cons.mp h with rfl | h'
    · exact hk
    · cases h'
  | cons kv₀ rest ih =>
    intro hKL
    obtain ⟨k', v⟩ := kv₀
    rw [mapInsert]
    have hk' : k'.length = n := hKL (k', v) (List.mem_cons_self _ _)
    have hrest : KeysLen n rest := by
      intro kv h
      exact hKL kv (List.mem_cons_of_mem _ h)
    split
    · intro kv h
      rcases List.mem_cons.mp h with rfl | h'
      · exact hk
      · exact hKL kv h'
    · split
      · intro kv h
        rcases List.mem_cons.mp h with rfl | h'
        · exact hk'
        · exact hrest kv h'
      · intro kv h
        rcases List.mem_cons.mp h with rfl | h'
        · exact hk'
        · exact ih hrest kv h'

/- ### Lemmas: recording one feature's grams -/

/-- Width-`n` gram `g` occurs, fully qualifying, in at least one searchable
field of feature `f`. -/
def featHasGram (n : Nat) (f : FeatureData) (g : ByteStr) : Prop :=
  ∃ s ∈ searchStrings f, g ∈ windows n s ∧ g.all qualifiesByte = true

theorem addGrams_cons {idx : Nat} {g : ByteStr} {gs : List ByteStr} {m : GramIndex} :
    addGrams idx (g :: gs) m =
      addGrams idx gs (if g.all qualifiesByte then mapInsert g idx m else m) := rfl

theorem addGrams_sortedKeys {idx : Nat} :
    ∀ {gs : List ByteStr} {m : GramIndex}, SortedKeys m →
      SortedKeys (addGrams idx gs m) := by
  intro gs
  induction gs with
  | nil => intro m h; exact h
  | cons g gs ih =>
    intro m h
    rw [addGrams_cons]
    apply ih
    split
    · exact mapInsert_sortedKeys h
    · exact h

theorem addGrams_postingsSorted {idx : Nat} :
    ∀ {gs : List ByteStr} {m : GramIndex}, PostingsSorted m →
      PostingsSorted (addGrams idx gs m) := by
  intro gs
  induction gs with
  | nil => intro m h; exact h
  | cons g gs ih =>
    intro m h
    rw [addGrams_cons]
    apply ih
    split
    · exact mapInsert_postingsSorted h
    · exact h

theorem addGrams_keysLen {n idx : Nat} :
    ∀ {gs : List ByteStr}, (∀ g ∈ gs, g.length = n) → ∀ {m : GramIndex},
      KeysLen n m → KeysLen n (addGrams idx gs m) := by
  intro gs
  induction gs with
  | nil => intro _ m h; exact h
  | cons g gs ih =>
    intro hlen m h
    rw [addGrams_cons]
    apply ih
    · intro g' h'
      exact hlen g' (List.mem_cons_of_mem _ h')
    · split
      · exact mapInsert_keysLen (hlen g (List.mem_cons_self _ _)) h
      · exact h

theorem mem_lookupGram_addGrams {idx : Nat} :
    ∀ {gs : List ByteStr} {m : GramIndex}, SortedKeys m → ∀ {g : ByteStr} {j : Nat},
      (j ∈ lookupGram g (addGrams idx gs m) ↔
        (j = idx ∧ g ∈ gs ∧ g.all qualifiesByte = true) ∨ j ∈ lookupGram g m) := by
  intro gs
  induction gs with
  | nil =>
    intro m _ g j
    simp [addGrams]
  | cons g₀ gs ih =>
    intro m hSK g j
    rw [addGrams_cons]
    by_cases hq : g₀.all qualifiesByte = true
    · rw [if_pos hq, ih (mapInsert_sortedKeys hSK), mem_lookupGram_mapInsert hSK]
      constructor
      · rintro (⟨rfl, hmem, hq'⟩ | (⟨rfl, rfl⟩ | h))
        · exact Or.inl ⟨rfl, List.mem_cons_of_mem _ hmem, hq'⟩
        · exact Or.inl ⟨rfl, List.mem_cons_self _ _, hq⟩
        · exact Or.inr h
      · rintro (⟨rfl, hmem, hq'⟩ | h)
        · rcases List.mem_cons.mp hmem with rfl | hmem'
          · exact Or.inr (Or.inl ⟨rfl, rfl⟩)
          · exact Or.inl ⟨rfl, hmem', hq'⟩
        · exact Or.inr (Or.inr h)
    · rw [if_neg hq, ih hSK]
      constructor
      · rintro (⟨rfl, hmem, hq'⟩ | h)
        · exact Or.inl ⟨rfl, List.mem_cons_of_mem _ hmem, hq'⟩
        · exact Or.inr h
      · rintro (⟨rfl, hmem, hq'⟩ | h)
        · rcases List.mem_cons.mp hmem with rfl | hmem'
          · exact absurd hq' hq
          · exact Or.inl ⟨rfl, hmem', hq'⟩
        · exact Or.inr h

theorem foldStrings_sortedKeys {n idx : Nat} :
    ∀ {ss : List ByteStr} {m : GramIndex}, SortedKeys m →
      SortedKeys (ss.foldl (fun m s => addGrams idx (windows n s) m) m) := by
  intro ss
  induction ss with
  | nil => intro m h; exact h
  | cons s ss ih =>
    intro m h
    rw [List.foldl_cons]
    exact ih (addGrams_sortedKeys h)

theorem foldStrings_postingsSorted {n idx : Nat} :
    ∀ {ss : List ByteStr} {m : GramIndex}, PostingsSorted m →
      PostingsSorted (ss.foldl (fun m s => addGrams idx (windows n s) m) m) := by
  intro ss
  induction ss with
  | nil => intro m h; exact h
  | cons s ss ih =>
    intro m h
    rw [List.foldl_cons]
    exact ih (addGrams_postingsSorted h)

theorem foldStrings_keysLen {n idx : Nat} (hn : 1 ≤ n) :
    ∀ {ss : List ByteStr} {m : GramIndex}, KeysLen n m →
      KeysLen n (ss.foldl (fun m s => addGrams idx (windows n s) m) m) := by
  intro ss
  induction ss with
  | nil => intro m h; exact h
  | cons s ss ih =>
    intro m h
    rw [List.foldl_cons]
    apply ih
    apply addGrams_keysLen ?_ h
    intro g hg
    exact ((mem_windows_iff hn).mp hg).1

theorem mem_lookupGram_foldStrings {n idx : Nat} :
    ∀ {ss : List ByteStr} {m : GramIndex}, SortedKeys m → ∀ {g : ByteStr} {j : Nat},
      (j ∈ lookupGram g (ss.foldl (fun m s => addGrams idx (windows n s) m) m) ↔
        (j = idx ∧ ∃ s ∈ ss, g ∈ windows n s ∧ g.all qualifiesByte = true) ∨
          j ∈ lookupGram g m) := by
  intro ss
  induction ss with
  | nil =>
    intro m _ g j
    simp
  | cons s₀ ss ih =>
    intro m hSK g j
    rw [List.foldl_cons, ih (addGrams_sortedKeys hSK), mem_lookupGram_addGrams hSK]
    constructor
    · rintro (⟨rfl, s, hs, hw, hq⟩ | (⟨rfl, hw, hq⟩ | h))
      · exact Or.inl ⟨rfl, s, List.mem_cons_of_mem _ hs, hw, hq⟩
      · exact Or.inl ⟨rfl, s₀, List.mem_cons_self _ _, hw, hq⟩
      · exact Or.inr h
    · rintro (⟨rfl, s, hs, hw, hq⟩ | h)
      · rcases List.mem_cons.mp hs with rfl | hs'
        · exact Or.inr (Or.inl ⟨rfl, hw, hq⟩)
        · exact Or.inl ⟨rfl, s, hs', hw, hq⟩
      · exact Or.inr (Or.inr h)

theorem afn_sortedKeys {n : Nat} {m : GramIndex} {f : FeatureData} {idx : Nat}
    (h : SortedKeys m) : SortedKeys (add_feature_ngrams n m f idx) :=
  foldStrings_sortedKeys h

theorem afn_postingsSorted {n : Nat} {m : GramIndex} {f : FeatureData} {idx : Nat}
    (h : PostingsSorted m) : PostingsSorted (add_feature_ngrams n m f idx) :=
  foldStrings_postingsSorted h

theorem afn_keysLen {n : Nat} (hn : 1 ≤ n) {m : GramIndex} {f : FeatureData}
    {idx : Nat} (h : KeysLen n m) : KeysLen n (add_feature_ngrams n m f idx) :=
  foldStrings_keysLen hn h

theorem mem_lookupGram_afn {n : Nat} {m : GramIndex} {f : FeatureData} {idx : Nat}
    (hSK : SortedKeys m) {g : ByteStr} {j : Nat} :
    j ∈ lookupGram g (add_feature_ngrams n m f idx) ↔
      (j = idx ∧ featHasGram n f g) ∨ j ∈ lookupGram g m :=
  mem_lookupGram_foldStrings hSK

/- ### Lemmas: the feature/version loops of `generate_data` -/

/-- The representation invariants of the three accumulators, as maintained
by the `BTreeMap`/`BTreeSet` implementation. -/
def AccInv (acc : BuildAcc) : Prop :=
  SortedKeys acc.monogram_index ∧ SortedKeys acc.bigram_index ∧
    SortedKeys acc.trigram_index ∧
  PostingsSorted acc.monogram_index ∧ PostingsSorted acc.bigram_index ∧
    PostingsSorted acc.trigram_index ∧
  KeysLen 1 acc.monogram_index ∧ KeysLen 2 acc.bigram_index ∧
    KeysLen 3 acc.trigram_index

theorem accInv_init : AccInv initAcc := by
  refine ⟨List.Pairwise.nil, List.Pairwise.nil, List.Pairwise.nil, ?_, ?_, ?_, ?_, ?_, ?_⟩ <;>
    intro kv h <;> cases h

theorem processFeature_ok {acc acc' : BuildAcc} {f : FeatureData}
    (h : processFeature acc f = Except.ok acc') :
    acc'.monogram_index = add_feature_ngrams 1 acc.monogram_index f acc.feat_idx ∧
    acc'.bigram_index = add_feature_ngrams 2 acc.bigram_index f acc.feat_idx ∧
    acc'.trigram_index = add_feature_ngrams 3 acc.trigram_index f acc.feat_idx ∧
    acc'.versions = acc.versions ∧ acc'.feat_idx = acc.feat_idx + 1 := by
  rw [processFeature] at h
  split at h
  · cases h
  · cases h
    exact ⟨rfl, rfl, rfl, rfl, rfl⟩

theorem processFeature_inv {acc acc' : BuildAcc} {f : FeatureData}
    (hInv : AccInv acc) (h : processFeature acc f = Except.ok acc') :
    AccInv acc' := by
  obtain ⟨h1, h2, h3, h4, _⟩ := processFeature_ok h
  obtain ⟨s1, s2, s3, p1, p2, p3, l1, l2, l3⟩ := hInv
  rw [AccInv, h1, h2, h3]
  exact ⟨afn_sortedKeys s1, afn_sortedKeys s2, afn_sortedKeys s3,
    afn_postingsSorted p1, afn_postingsSorted p2, afn_postingsSorted p3,
    afn_keysLen (by omega) l1, afn_keysLen (by omega) l2, afn_keysLen (by omega) l3⟩

theorem exists_getElem_cons {β : Type _} {f : β} {fs : List β} {b j : Nat}
    {P : β → Prop} :
    (∃ k g', (f :: fs)[k]? = some g' ∧ j = b + k ∧ P g') ↔
      ((j = b ∧ P f) ∨ ∃ k g', fs[k]? = some g' ∧ j = (b + 1) + k ∧ P g') := by
  constructor
  · rintro ⟨k, g', hk, rfl, hP⟩
    cases k with
    | zero =>
      rw [List.getElem?_cons_zero] at hk
      cases hk
      exact Or.inl ⟨by omega, hP⟩
    | succ k' =>
      rw [List.getElem?_cons_succ] at hk
      exact Or.inr ⟨k', g', hk, by omega, hP⟩
  · rintro (⟨rfl, hP⟩ | ⟨k, g', hk, rfl, hP⟩)
    · exact ⟨0, f, List.getElem?_cons_zero, by omega, hP⟩
    · exact ⟨k + 1, g', by rwa [List.getElem?_cons_succ], by omega, hP⟩

theorem exists_getElem_append {β : Type _} {l₁ l₂ : List β} {b j : Nat}
    {P : β → Prop} :
    (∃ k g', (l₁ ++ l₂)[k]? = some g' ∧ j = b + k ∧ P g') ↔
      ((∃ k g', l₁[k]? = some g' ∧ j = b + k ∧ P g') ∨
        ∃ k g', l₂[k]? = some g' ∧ j = (b + l₁.length) + k ∧ P g') := by
  constructor
  · rintro ⟨k, g', hk, rfl, hP⟩
    by_cases hlt : k < l₁.length
    · exact Or.inl ⟨k, g', by rwa [List.getElem?_append_left hlt] at hk, rfl, hP⟩
    · refine Or.inr ⟨k - l₁.length, g', ?_, by omega, hP⟩
      rwa [List.getElem?_append_right (by omega)] at hk
  · rintro (⟨k, g', hk, rfl, hP⟩ | ⟨k, g', hk, rfl, hP⟩)
    · obtain ⟨hlt, _⟩ := List.getElem?_eq_some_iff.mp hk
      exact ⟨k, g', by rwa [List.getElem?_append_left hlt], rfl, hP⟩
    · refine ⟨l₁.length + k, g', ?_, by omega, hP⟩
      rw [List.getElem?_append_right (Nat.le_add_right _ _), Nat.add_sub_cancel_left]
      exact hk

theorem foldFeatures_inv :
    ∀ {fs : List FeatureData} {acc acc' : BuildAcc}, AccInv acc →
      fs.foldlM processFeature acc = Except.ok acc' → AccInv acc' := by
  intro fs
  induction fs with
  | nil =>
    intro acc acc' hInv h
    cases h
    exact hInv
  | cons f fs ih =>
    intro acc acc' hInv h
    rw [List.foldlM_cons] at h
    cases hpf : processFeature acc f with
    | error e =>
      rw [hpf] at h
      simp only [bind, Except.bind] at h
      cases h
    | ok acc₁ =>
      rw [hpf] at h
      simp only [bind, Except.bind] at h
      exact ih (processFeature_inv hInv hpf) h

theorem foldFeatures_proj (π : BuildAcc → GramIndex) (n : Nat)
    (hstep : ∀ (a a' : BuildAcc) (f : FeatureData), processFeature a f = Except.ok a' →
      π a' = add_feature_ngrams n (π a) f a.feat_idx) :
    ∀ {fs : List FeatureData} {acc acc' : BuildAcc}, AccInv acc → SortedKeys (π acc) →
      fs.foldlM processFeature acc = Except.ok acc' →
      acc'.feat_idx = acc.feat_idx + fs.length ∧
      ∀ g j, (j ∈ lookupGram g (π acc') ↔
        (∃ k f, fs[k]? = some f ∧ j = acc.feat_idx + k ∧ featHasGram n f g) ∨
          j ∈ lookupGram g (π acc)) := by
  intro fs
  induction fs with
  | nil =>
    intro acc acc' hInv hSK h
    cases h
    refine ⟨by simp, ?_⟩
    intro g j
    simp
  | cons f fs ih =>
    intro acc acc' hInv hSK h
    rw [List.foldlM_cons] at h
    cases hpf : processFeature acc f with
    | error e =>
      rw [hpf] at h
      simp only [bind, Except.bind] at h
      cases h
    | ok acc₁ =>
      rw [hpf] at h
      simp only [bind, Except.bind] at h
      have hπ : π acc₁ = add_feature_ngrams n (π acc) f acc.feat_idx :=
        hstep acc acc₁ f hpf
      have hidx : acc₁.feat_idx = acc.feat_idx + 1 := (processFeature_ok hpf).2.2.2.2
      have hSK₁ : SortedKeys (π acc₁) := by
        rw [hπ]
        exact afn_sortedKeys hSK
      obtain ⟨hidx', hchar⟩ := ih (processFeature_inv hInv hpf) hSK₁ h
      refine ⟨by rw [hidx', hidx, List.length_cons]; omega, ?_⟩
      intro g j
      rw [hchar g j, hπ, mem_lookupGram_afn hSK, exists_getElem_cons, hidx]
      constructor
      · rintro (hA | hB | hC)
        · exact Or.inl (Or.inr hA)
        · exact Or.inl (Or.inl hB)
        · exact Or.inr hC
      · rintro ((hB | hA) | hC)
        · exact Or.inr (Or.inl hB)
        · exact Or.inl hA
        · exact Or.inr (Or.inr hC)

theorem processVersion_indexes {acc acc' : BuildAcc} {v : FeatureList}
    (h : processVersion acc v = Except.ok acc') :
    ∃ acc₀ : BuildAcc,
      acc₀.monogram_index = acc.monogram_index ∧
      acc₀.bigram_index = acc.bigram_index ∧
      acc₀.trigram_index = acc.trigram_index ∧
      acc₀.feat_idx = acc.feat_idx ∧
      v.features.foldlM processFeature acc₀ = Except.ok acc' := by
  rw [processVersion] at h
  cases hv : v.version with
  | none =>
    rw [hv] at h
    exact ⟨acc, rfl, rfl, rfl, rfl, h⟩
  | some d =>
    rw [hv] at h
    refine ⟨{ acc with versions := acc.versions ++
        [{ number := d.number, channel := d.channel,
           blog_post_path := d.blog_post_path,
           gh_milestone_id := d.gh_milestone_id }] }, rfl, rfl, rfl, rfl, h⟩

theorem or_shuffle {A B C : Prop} : (A ∨ (B ∨ C)) ↔ ((B ∨ A) ∨ C) := by tauto

theorem processVersion_inv {acc acc' : BuildAcc} {v : FeatureList}
    (hInv : AccInv acc) (h : processVersion acc v = Except.ok acc') :
    AccInv acc' := by
  obtain ⟨acc₀, h1, h2, h3, h4, hfold⟩ := processVersion_indexes h
  have hInv₀ : AccInv acc₀ := by
    rw [AccInv, h1, h2, h3]
    exact hInv
  exact foldFeatures_inv hInv₀ hfold

/-- The characterization of all three accumulators through the whole
`for v in feature_toml.versions` loop. -/
theorem foldVersions_char :
    ∀ {vs : List FeatureList} {acc acc' : BuildAcc}, AccInv acc →
      vs.foldlM processVersion acc = Except.ok acc' →
      AccInv acc' ∧
      acc'.feat_idx = acc.feat_idx + ((vs.map FeatureList.features).flatten).length ∧
      (∀ g j, (j ∈ lookupGram g acc'.monogram_index ↔
        (∃ k f, ((vs.map FeatureList.features).flatten)[k]? = some f ∧
          j = acc.feat_idx + k ∧ featHasGram 1 f g) ∨
          j ∈ lookupGram g acc.monogram_index)) ∧
      (∀ g j, (j ∈ lookupGram g acc'.bigram_index ↔
        (∃ k f, ((vs.map FeatureList.features).flatten)[k]? = some f ∧
          j = acc.feat_idx + k ∧ featHasGram 2 f g) ∨
          j ∈ lookupGram g acc.bigram_index)) ∧
      (∀ g j, (j ∈ lookupGram g acc'.trigram_index ↔
        (∃ k f, ((vs.map FeatureList.features).flatten)[k]? = some f ∧
          j = acc.feat_idx + k ∧ featHasGram 3 f g) ∨
          j ∈ lookupGram g acc.trigram_index)) := by
  intro vs
  induction vs with
  | nil =>
    intro acc acc' hInv h
    cases h
    refine ⟨hInv, by simp, ?_, ?_, ?_⟩ <;>
      · intro g j
        simp
  | cons v vs ih =>
    intro acc acc' hInv h
    rw [List.foldlM_cons] at h
    cases hpv : processVersion acc v with
    | error e =>
      rw [hpv] at h
      simp only [bind, Except.bind] at h
      cases h
    | ok acc₁ =>
      rw [hpv] at h
      simp only [bind, Except.bind] at h
      obtain ⟨acc₀, h1, h2, h3, h4, hfold⟩ := processVersion_indexes hpv
      have hInv₀ : AccInv acc₀ := by
        rw [AccInv, h1, h2, h3]
        exact hInv
      obtain ⟨hidx1, hchar1⟩ := foldFeatures_proj BuildAcc.monogram_index 1
        (fun a a' f hp => (processFeature_ok hp).1) hInv₀ hInv₀.1 hfold
      obtain ⟨_, hchar2⟩ := foldFeatures_proj BuildAcc.bigram_index 2
        (fun a a' f hp => (processFeature_ok hp).2.1) hInv₀ hInv₀.2.1 hfold
      obtain ⟨_, hchar3⟩ := foldFeatures_proj BuildAcc.trigram_index 3
        (fun a a' f hp => (processFeature_ok hp).2.2.1) hInv₀ hInv₀.2.2.1 hfold
      rw [h4] at hidx1 hchar1 hchar2 hchar3
      rw [h1] at hchar1
      rw [h2] at hchar2
      rw [h3] at hchar3
      obtain ⟨hInv', hidx', hc1, hc2, hc3⟩ := ih (foldFeatures_inv hInv₀ hfold) h
      rw [hidx1] at hidx' hc1 hc2 hc3
      refine ⟨hInv', ?_, ?_, ?_, ?_⟩
      · rw [hidx']
        simp only [List.map_cons, List.flatten_cons, List.length_append]
        omega
      · intro g j
        rw [hc1 g j, hchar1 g j, List.map_cons, List.flatten_cons,
          exists_getElem_append]
        exact or_shuffle
      · intro g j
        rw [hc2 g j, hchar2 g j, List.map_cons, List.flatten_cons,
          exists_getElem_append]
        exact or_shuffle
      · intro g j
        rw [hc3 g j, hchar3 g j, List.map_cons, List.flatten_cons,
          exists_getElem_append]
        exact or_shuffle

/-- The central characterization of `buildIndexes`: feature index `j` is in
the postings for gram `g` of the width-`n` accumulator exactly when the
`j`-th iterated feature has `g` as a fully qualifying width-`n` window of a
searchable field. -/
theorem buildIndexes_char {t : FeatureToml} {acc : BuildAcc}
    (h : buildIndexes t = Except.ok acc) :
    AccInv acc ∧ acc.feat_idx = (allFeatures t).length ∧
    (∀ g j, (j ∈ lookupGram g acc.monogram_index ↔
      ∃ f, (allFeatures t)[j]? = some f ∧ featHasGram 1 f g)) ∧
    (∀ g j, (j ∈ lookupGram g acc.bigram_index ↔
      ∃ f, (allFeatures t)[j]? = some f ∧ featHasGram 2 f g)) ∧
    (∀ g j, (j ∈ lookupGram g acc.trigram_index ↔
      ∃ f, (allFeatures t)[j]? = some f ∧ featHasGram 3 f g)) := by
  rw [buildIndexes] at h
  obtain ⟨hInv, hidx, hc1, hc2, hc3⟩ := foldVersions_char accInv_init h
  refine ⟨hInv, ?_, ?_, ?_, ?_⟩
  · rw [hidx]
    show 0 + ((t.versions.map FeatureList.features).flatten).length = _
    rw [Nat.zero_add]
    rfl
  · intro g j
    rw [hc1 g j]
    constructor
    · rintro (⟨k, f, hk, hj, hP⟩ | hfalse)
      · simp only [initAcc, Nat.zero_add] at hj
        subst hj
        exact ⟨f, hk, hP⟩
      · exact absurd hfalse (by simp [initAcc, lookupGram])
    · rintro ⟨f, hk, hP⟩
      exact Or.inl ⟨j, f, hk, by simp [initAcc], hP⟩
  · intro g j
    rw [hc2 g j]
    constructor
    · rintro (⟨k, f, hk, hj, hP⟩ | hfalse)
      · simp only [initAcc, Nat.zero_add] at hj
        subst hj
        exact ⟨f, hk, hP⟩
      · exact absurd hfalse (by simp [initAcc, lookupGram])
    · rintro ⟨f, hk, hP⟩
      exact Or.inl ⟨j, f, hk, by simp [initAcc], hP⟩
  · intro g j
    rw [hc3 g j]
    constructor
    · rintro (⟨k, f, hk, hj, hP⟩ | hfalse)
      · simp only [initAcc, Nat.zero_add] at hj
        subst hj
        exact ⟨f, hk, hP⟩
      · exact absurd hfalse (by simp [initAcc, lookupGram])
    · rintro ⟨f, hk, hP⟩
      exact Or.inl ⟨j, f, hk, by simp [initAcc], hP⟩

/- ### Lemmas: flattening the accumulators -/

theorem flattenMonogram_isOk {m : GramIndex} (h : KeysLen 1 m) :
    ∃ l, flattenMonogram m = Except.ok l := by
  induction m with
  | nil => exact ⟨[], rfl⟩
  | cons kv rest ih =>
    obtain ⟨k, v⟩ := kv
    have hk : k.length = 1 := h (k, v) (List.mem_cons_self _ _)
    obtain ⟨b1, rfl⟩ : ∃ b1, k = [b1] := by
      match k, hk with
      | [b1], _ => exact ⟨b1, rfl⟩
    obtain ⟨l, hl⟩ := ih (fun kv h' => h kv (List.mem_cons_of_mem _ h'))
    refine ⟨(b1, v) :: l, ?_⟩
    rw [flattenMonogram] at hl
    rw [flattenMonogram, List.mapM_cons, hl]
    rfl

theorem flattenBigram_isOk {m : GramIndex} (h : KeysLen 2 m) :
    ∃ l, flattenBigram m = Except.ok l := by
  induction m with
  | nil => exact ⟨[], rfl⟩
  | cons kv rest ih =>
    obtain ⟨k, v⟩ := kv
    have hk : k.length = 2 := h (k, v) (List.mem_cons_self _ _)
    obtain ⟨b1, b2, rfl⟩ : ∃ b1 b2, k = [b1, b2] := by
      match k, hk with
      | [b1, b2], _ => exact ⟨b1, b2, rfl⟩
    obtain ⟨l, hl⟩ := ih (fun kv h' => h kv (List.mem_cons_of_mem _ h'))
    refine ⟨((b1, b2), v) :: l, ?_⟩
    rw [flattenBigram] at hl
    rw [flattenBigram, List.mapM_cons, hl]
    rfl

theorem flattenTrigram_isOk {m : GramIndex} (h : KeysLen 3 m) :
    ∃ l, flattenTrigram m = Except.ok l := by
  induction m with
  | nil => exact ⟨[], rfl⟩
  | cons kv rest ih =>
    obtain ⟨k, v⟩ := kv
    have hk : k.length = 3 := h (k, v) (List.mem_cons_self _ _)
    obtain ⟨b1, b2, b3, rfl⟩ : ∃ b1 b2 b3, k = [b1, b2, b3] := by
      match k, hk with
      | [b1, b2, b3], _ => exact ⟨b1, b2, b3, rfl⟩
    obtain ⟨l, hl⟩ := ih (fun kv h' => h kv (List.mem_cons_of_mem _ h'))
    refine ⟨((b1, b2, b3), v) :: l, ?_⟩
    rw [flattenTrigram] at hl
    rw [flattenTrigram, List.mapM_cons, hl]
    rfl

/- ### Lemmas: when construction succeeds (the backtick assert) -/

/-- No item of the feature contains a backtick byte: the property the
`assert!` in `generate_data` checks. -/
def cleanFeature (f : FeatureData) : Prop :=
  ∀ it ∈ f.items, (96 : Byte) ∉ it

theorem processFeature_isOk_iff {acc : BuildAcc} {f : FeatureData} :
    (∃ acc', processFeature acc f = Except.ok acc') ↔ cleanFeature f := by
  rw [processFeature]
  split
  · next hdirty =>
    constructor
    · rintro ⟨acc', h⟩
      cases h
    · intro hclean
      exfalso
      rw [List.any_eq_true] at hdirty
      obtain ⟨it, hit, hcont⟩ := hdirty
      exact hclean it hit (List.elem_iff.mp hcont)
  · next hdirty =>
    constructor
    · intro _ it hit hmem
      apply hdirty
      rw [List.any_eq_true]
      exact ⟨it, hit, List.elem_iff.mpr hmem⟩
    · intro _
      exact ⟨_, rfl⟩

theorem foldFeatures_isOk :
    ∀ {fs : List FeatureData} {acc : BuildAcc},
      (∃ acc', fs.foldlM processFeature acc = Except.ok acc') ↔
        ∀ f ∈ fs, cleanFeature f := by
  intro fs
  induction fs with
  | nil =>
    intro acc
    constructor
    · intro _ f hf
      cases hf
    · intro _
      exact ⟨acc, rfl⟩
  | cons f fs ih =>
    intro acc
    rw [List.foldlM_cons]
    cases hpf : processFeature acc f with
    | error e =>
      constructor
      · rintro ⟨acc', h⟩
        simp only [bind, Except.bind] at h
        cases h
      · intro hclean
        exfalso
        have : ∃ acc', processFeature acc f = Except.ok acc' :=
          processFeature_isOk_iff.mpr (hclean f (List.mem_cons_self _ _))
        rw [hpf] at this
        obtain ⟨acc', h⟩ := this
        cases h
    | ok acc₁ =>
      simp only [bind, Except.bind]
      rw [ih]
      constructor
      · intro hall f' hf'
        rcases List.mem_cons.mp hf' with rfl | hf''
        · exact processFeature_isOk_iff.mp ⟨acc₁, hpf⟩
        · exact hall f' hf''
      · intro hall f' hf'
        exact hall f' (List.mem_cons_of_mem _ hf')

theorem processVersion_isOk_iff {acc : BuildAcc} {v : FeatureList} :
    (∃ acc', processVersion acc v = Except.ok acc') ↔
      ∀ f ∈ v.features, cleanFeature f := by
  rw [processVersion]
  cases hv : v.version with
  | none => exact foldFeatures_isOk
  | some d => exact foldFeatures_isOk

theorem foldVersions_isOk :
    ∀ {vs : List FeatureList} {acc : BuildAcc},
      (∃ acc', vs.foldlM processVersion acc = Except.ok acc') ↔
        ∀ v ∈ vs, ∀ f ∈ v.features, cleanFeature f := by
  intro vs
  induction vs with
  | nil =>
    intro acc
    constructor
    · intro _ v hv
      cases hv
    · intro _
      exact ⟨acc, rfl⟩
  | cons v vs ih =>
    intro acc
    rw [List.foldlM_cons]
    cases hpv : processVersion acc v with
    | error e =>
      constructor
      · rintro ⟨acc', h⟩
        simp only [bind, Except.bind] at h
        cases h
      · intro hclean
        exfalso
        have : ∃ acc', processVersion acc v = Except.ok acc' :=
          processVersion_isOk_iff.mpr (hclean v (List.mem_cons_self _ _))
        rw [hpv] at this
        obtain ⟨acc', h⟩ := this
        cases h
    | ok acc₁ =>
      simp only [bind, Except.bind]
      rw [ih]
      constructor
      · intro hall v' hv'
        rcases List.mem_cons.mp hv' with rfl | hv''
        · exact processVersion_isOk_iff.mp ⟨acc₁, hpv⟩
        · exact hall v' hv''
      · intro hall v' hv'
        exact hall v' (List.mem_cons_of_mem _ hv')

theorem mem_allFeatures_iff {t : FeatureToml} {f : FeatureData} :
    f ∈ allFeatures t ↔ ∃ v ∈ t.versions, f ∈ v.features := by
  rw [allFeatures, List.mem_flatten]
  constructor
  · rintro ⟨l, hl, hf⟩
    obtain ⟨v, hv, rfl⟩ := List.mem_map.mp hl
    exact ⟨v, hv, hf⟩
  · rintro ⟨v, hv, hf⟩
    exact ⟨v.features, List.mem_map.mpr ⟨v, hv, rfl⟩, hf⟩

theorem buildIndexes_isOk_iff {t : FeatureToml} :
    (∃ acc, buildIndexes t = Except.ok acc) ↔
      ∀ f ∈ allFeatures t, cleanFeature f := by
  rw [buildIndexes, foldVersions_isOk]
  constructor
  · intro hall f hf
    obtain ⟨v, hv, hf'⟩ := mem_allFeatures_iff.mp hf
    exact hall v hv f hf'
  · intro hall v hv f hf
    exact hall f (mem_allFeatures_iff.mpr ⟨v, hv, hf⟩)

theorem generate_data_isOk_iff {t : FeatureToml} :
    (generate_data t).isOk = true ↔ ∀ f ∈ allFeatures t, cleanFeature f := by
  constructor
  · intro h
    rw [generate_data] at h
    cases hb : buildIndexes t with
    | error e =>
      rw [hb] at h
      simp only [bind, Except.bind, Except.isOk, Except.toBool] at h
      cases h
    | ok acc =>
      exact buildIndexes_isOk_iff.mp ⟨acc, hb⟩
  · intro hclean
    obtain ⟨acc, hb⟩ := buildIndexes_isOk_iff.mpr hclean
    obtain ⟨hInv, -⟩ := buildIndexes_char hb
    obtain ⟨-, -, -, -, -, -, l1, l2, l3⟩ := hInv
    obtain ⟨m1, hm1⟩ := flattenMonogram_isOk l1
    obtain ⟨m2, hm2⟩ := flattenBigram_isOk l2
    obtain ⟨m3, hm3⟩ := flattenTrigram_isOk l3
    rw [generate_data, hb]
    simp only [bind, Except.bind, hm1, hm2, hm3]
    rfl

/- ### Lemmas: canonical representation of the sorted accumulator -/

theorem findEntry_isSome_imp {g : ByteStr} :
    ∀ {m : GramIndex} {v : List Nat}, findEntry g m = some v →
      ∃ kv ∈ m, kv.1 = g := by
  intro m
  induction m with
  | nil =>
    intro v h
    cases h
  | cons kv rest ih =>
    intro v h
    obtain ⟨k, v'⟩ := kv
    rw [findEntry] at h
    split at h
    · next heq =>
      exact ⟨(k, v'), List.mem_cons_self _ _, heq⟩
    · obtain ⟨kv', hm, hk⟩ := ih h
      exact ⟨kv', List.mem_cons_of_mem _ hm, hk⟩

theorem findEntry_eq_none_of_lt {g : ByteStr} :
    ∀ {m : GramIndex}, (∀ kv ∈ m, keyLt g kv.1 = true) → findEntry g m = none := by
  intro m
  induction m with
  | nil =>
    intro _
    rfl
  | cons kv rest ih =>
    intro h
    obtain ⟨k, v⟩ := kv
    rw [findEntry, if_neg, ih]
    · intro kv' h'
      exact h kv' (List.mem_cons_of_mem _ h')
    · intro hk
      exact ne_of_keyLt (h (k, v) (List.mem_cons_self _ _)) hk.symm

/-- Two key-sorted accumulators with the same entry for every gram are
equal as entry sequences: the sorted association list is a canonical
representation of the finite map, which is what makes `BTreeMap` iteration
(and hence the emitted index) deterministic. -/
theorem sortedKeys_ext :
    ∀ {m₁ m₂ : GramIndex}, SortedKeys m₁ → SortedKeys m₂ →
      (∀ g, findEntry g m₁ = findEntry g m₂) → m₁ = m₂ := by
  intro m₁
  induction m₁ with
  | nil =>
    intro m₂ _ _ hext
    cases m₂ with
    | nil => rfl
    | cons kv rest =>
      obtain ⟨k, v⟩ := kv
      have h := hext k
      rw [findEntry, findEntry, if_pos rfl] at h
      cases h
  | cons kv r₁ ih =>
    intro m₂ hS1 hS2 hext
    obtain ⟨k₁, v₁⟩ := kv
    cases m₂ with
    | nil =>
      have h := hext k₁
      rw [findEntry, findEntry, if_pos rfl] at h
      cases h
    | cons kv₂ r₂ =>
      obtain ⟨k₂, v₂⟩ := kv₂
      rw [SortedKeys, List.pairwise_cons] at hS1 hS2
      obtain ⟨hk₁, hr₁⟩ := hS1
      obtain ⟨hk₂, hr₂⟩ := hS2
      have hkeq : k₁ = k₂ := by
        by_contra hne
        have h1 := hext k₁
        rw [findEntry, if_pos rfl, findEntry, if_neg (fun h => hne h.symm)] at h1
        obtain ⟨kv', hm', hk'⟩ := findEntry_isSome_imp h1.symm
        have hlt21 : keyLt k₂ k₁ = true := by
          rw [← hk']
          exact hk₂ kv' hm'
        have h2 := hext k₂
        rw [findEntry, if_neg hne, findEntry, if_pos rfl] at h2
        obtain ⟨kv'', hm'', hk''⟩ := findEntry_isSome_imp h2
        have hlt12 : keyLt k₁ k₂ = true := by
          rw [← hk'']
          exact hk₁ kv'' hm''
        rw [keyLt_asymm hlt12] at hlt21
        cases hlt21
      subst hkeq
      have hveq : v₁ = v₂ := by
        have h := hext k₁
        rw [findEntry, if_pos rfl, findEntry, if_pos rfl] at h
        cases h
        rfl
      subst hveq
      congr 1
      apply ih hr₁ hr₂
      intro g
      by_cases hg : g = k₁
      · subst hg
        rw [findEntry_eq_none_of_lt (fun kv h => hk₁ kv h),
          findEntry_eq_none_of_lt (fun kv h => hk₂ kv h)]
      · have h := hext g
        rw [findEntry, if_neg (fun h' => hg h'.symm), findEntry,
          if_neg (fun h' => hg h'.symm)] at h
        exact h

/- ### Lemmas: sorted-merge intersection (for the modelled retriever) -/

theorem lookupGram_pairwise {m : GramIndex} (h : PostingsSorted m) (g : ByteStr) :
    List.Pairwise (· < ·) (lookupGram g m) := by
  induction m with
  | nil => exact List.Pairwise.nil
  | cons kv rest ih =>
    obtain ⟨k, v⟩ := kv
    rw [lookupGram]
    split
    · exact h (k, v) (List.mem_cons_self _ _)
    · exact ih (fun kv h' => h kv (List.mem_cons_of_mem _ h'))

theorem mem_interSorted :
    ∀ (a b : List Nat), List.Pairwise (· < ·) a → List.Pairwise (· < ·) b →
      ∀ (x : Nat), (x ∈ interSorted a b ↔ x ∈ a ∧ x ∈ b) := by
  intro a b
  induction a, b using interSorted.induct with
  | case1 b =>
    intro _ _ x
    rw [interSorted]
    simp
  | case2 h t =>
    intro _ _ x
    rw [interSorted]
    simp
  | case3 a as b bs hab ih =>
    intro ha hb x
    rw [interSorted, if_pos hab]
    rw [List.pairwise_cons] at ha
    rw [ih ha.2 hb]
    constructor
    · rintro ⟨hxas, hxb⟩
      exact ⟨List.mem_cons_of_mem _ hxas, hxb⟩
    · rintro ⟨hxa, hxb⟩
      rcases List.mem_cons.mp hxa with rfl | hxas
      · exfalso
        rcases List.mem_cons.mp hxb with heq | hxbs
        · omega
        · rw [List.pairwise_cons] at hb
          have := hb.1 _ hxbs
          omega
      · exact ⟨hxas, hxb⟩
  | case4 a as b bs hab hba ih =>
    intro ha hb x
    rw [interSorted, if_neg hab, if_pos hba]
    rw [List.pairwise_cons] at hb
    rw [ih ha hb.2]
    constructor
    · rintro ⟨hxa, hxbs⟩
      exact ⟨hxa, List.mem_cons_of_mem _ hxbs⟩
    · rintro ⟨hxa, hxb⟩
      rcases List.mem_cons.mp hxb with rfl | hxbs
      · exfalso
        rcases List.mem_cons.mp hxa with heq | hxas
        · omega
        · rw [List.pairwise_cons] at ha
          have := ha.1 _ hxas
          omega
      · exact ⟨hxa, hxbs⟩
  | case5 a as b bs hab hba ih =>
    have heq : a = b := by omega
    subst heq
    intro ha hb x
    rw [interSorted, if_neg hab, if_neg hba]
    rw [List.pairwise_cons] at ha hb
    rw [List.mem_cons, ih ha.2 hb.2]
    constructor
    · rintro (rfl | ⟨hxas, hxbs⟩)
      · exact ⟨List.mem_cons_self _ _, List.mem_cons_self _ _⟩
      · exact ⟨List.mem_cons_of_mem _ hxas, List.mem_cons_of_mem _ hxbs⟩
    · rintro ⟨hxa, hxb⟩
      rcases List.mem_cons.mp hxa with rfl | hxas
      · exact Or.inl rfl
      · rcases List.mem_cons.mp hxb with heq | hxbs
        · exfalso
          have := ha.1 _ hxas
          omega
        · exact Or.inr ⟨hxas, hxbs⟩

theorem interSorted_pairwise :
    ∀ (a b : List Nat), List.Pairwise (· < ·) a → List.Pairwise (· < ·) b →
      List.Pairwise (· < ·) (interSorted a b) := by
  intro a b
  induction a, b using interSorted.induct with
  | case1 b =>
    intro _ _
    rw [interSorted]
    exact List.Pairwise.nil
  | case2 h t =>
    intro _ _
    rw [interSorted]
    exact List.Pairwise.nil
  | case3 a as b bs hab ih =>
    intro ha hb
    rw [interSorted, if_pos hab]
    rw [List.pairwise_cons] at ha
    exact ih ha.2 hb
  | case4 a as b bs hab hba ih =>
    intro ha hb
    rw [interSorted, if_neg hab, if_pos hba]
    rw [List.pairwise_cons] at hb
    exact ih ha hb.2
  | case5 a as b bs hab hba ih =>
    have heq : a = b := by omega
    subst heq
    intro ha hb
    rw [interSorted, if_neg hab, if_neg hba]
    rw [List.pairwise_cons] at ha hb
    rw [List.pairwise_cons]
    refine ⟨?_, ih ha.2 hb.2⟩
    intro y hy
    have hmem := (mem_interSorted as bs ha.2 hb.2 y).mp hy
    exact ha.1 y hmem.1

theorem mem_foldl_interSorted {idx : GramIndex} (hPS : PostingsSorted idx) :
    ∀ {gs : List ByteStr} {s : List Nat}, List.Pairwise (· < ·) s →
      ∀ {x : Nat},
        (x ∈ gs.foldl (fun s g => interSorted s (lookupGram g idx)) s ↔
          x ∈ s ∧ ∀ g ∈ gs, x ∈ lookupGram g idx) := by
  intro gs
  induction gs with
  | nil =>
    intro s hs x
    simp
  | cons g gs ih =>
    intro s hs x
    rw [List.foldl_cons,
      ih (interSorted_pairwise _ _ hs (lookupGram_pairwise hPS g)),
      mem_interSorted _ _ hs (lookupGram_pairwise hPS g)]
    constructor
    · rintro ⟨⟨hxs, hxg⟩, hall⟩
      refine ⟨hxs, ?_⟩
      intro g' hg'
      rcases List.mem_cons.mp hg' with rfl | hg''
      · exact hxg
      · exact hall g' hg''
    · rintro ⟨hxs, hall⟩
      exact ⟨⟨hxs, hall g (List.mem_cons_self _ _)⟩,
        fun g' hg' => hall g' (List.mem_cons_of_mem _ hg')⟩

/- ### Lemmas: the incremental search session -/

/-- The cache-reuse condition of `Index::change`, characterised as a
proposition: non-empty previous terms, no longer than the new terms, and
either exact prefix agreement or agreement except that the last previous
term is a prefix of the corresponding new term. -/
theorem isRefinement_char (prev q : List ByteStr) :
    isRefinement prev q = true ↔
      prev ≠ [] ∧ prev.length ≤ q.length ∧
        (prev = q.take prev.length ∨
          (prev.take (prev.length - 1) = q.take (prev.length - 1) ∧
            ∃ plast qlast, prev[prev.length - 1]? = some plast ∧
              q[prev.length - 1]? = some qlast ∧ plast <+: qlast)) := by
  rw [isRefinement, Bool.and_eq_true, Bool.and_eq_true, Bool.or_eq_true,
    Bool.and_eq_true]
  constructor
  · rintro ⟨⟨hne, hlen⟩, hcond⟩
    have hne' : prev ≠ [] := by
      intro h
      rw [h] at hne
      cases hne
    have hlen' : prev.length ≤ q.length := of_decide_eq_true hlen
    refine ⟨hne', hlen', ?_⟩
    rcases hcond with heq | ⟨htake, hpre⟩
    · exact Or.inl (of_decide_eq_true heq)
    · right
      refine ⟨of_decide_eq_true htake, ?_⟩
      have hplen : prev.length - 1 < prev.length := by
        have : prev.length ≠ 0 := fun h => hne' (List.length_eq_zero.mp h)
        omega
      have hqlen : prev.length - 1 < q.length := by omega
      refine ⟨prev.getD (prev.length - 1) [], q.getD (prev.length - 1) [], ?_, ?_, ?_⟩
      · rw [List.getD_eq_getElem?_getD, List.getElem?_eq_getElem hplen]
        rfl
      · rw [List.getD_eq_getElem?_getD, List.getElem?_eq_getElem hqlen]
        rfl
      · exact ( List.isPrefixOf_iff_prefix).mp hpre
  · rintro ⟨hne, hlen, hcond⟩
    refine ⟨⟨?_, decide_eq_true hlen⟩, ?_⟩
    · cases prev with
      | nil => exact absurd rfl hne
      | cons _ _ => rfl
    · rcases hcond with heq | ⟨htake, plast, qlast, hp, hq, hpre⟩
      · exact Or.inl (decide_eq_true heq)
      · right
        refine ⟨decide_eq_true htake, ?_⟩
        rw [List.getD_eq_getElem?_getD, List.getD_eq_getElem?_getD, hp, hq]
        exact ( List.isPrefixOf_iff_prefix).mpr hpre

/-- Containment is antitone in the needle: a prefix of a contained term is
contained too. -/
theorem occursCI_of_isPrefixOf {t u s : ByteStr} (hpre : t <+: u)
    (h : occursCI u s = true) : occursCI t s = true := by
  rw [occursCI, decide_eq_true_eq] at h ⊢
  exact ((hpre.map toLowerByte).isInfix).trans h

/-- If the new query refines the old one, every feature matching the new
query also matches the old one, so filtering the cached results loses
nothing. -/
theorem does_match_of_refinement {P Q : List ByteStr}
    (href : isRefinement P Q = true) {f : FeatureData}
    (h : does_match f Q = true) : does_match f P = true := by
  obtain ⟨hne, hlen, hcond⟩ := (isRefinement_char P Q).mp href
  rw [does_match, List.all_eq_true] at h ⊢
  intro t ht
  obtain ⟨i, hi, rfl⟩ := List.mem_iff_getElem.mp ht
  have hQany : ∀ u, u ∈ Q → (searchStrings f).any (fun s => occursCI u s) = true :=
    fun u hu => h u hu
  have hgen : ∀ (hiq : i < Q.length), P[i]? = Q[i]? →
      (searchStrings f).any (fun s => occursCI P[i] s) = true := by
    intro hiq hPQ
    rw [List.getElem?_eq_getElem hi, List.getElem?_eq_getElem hiq] at hPQ
    have heq2 : P[i] = Q[i] := Option.some.inj hPQ
    rw [heq2]
    exact hQany _ (List.getElem_mem hiq)
  rcases hcond with heq | ⟨htake, plast, qlast, hp, hq, hpre⟩
  · -- the previous terms are exactly an initial segment of the new ones
    apply hgen (by omega)
    conv_lhs => rw [heq]
    rw [List.getElem?_take, if_pos hi]
  · by_cases hi' : i < P.length - 1
    · -- a term before the last one: identical in both queries
      apply hgen (by omega)
      have h1 : P[i]? = (P.take (P.length - 1))[i]? := by
        rw [List.getElem?_take, if_pos hi']
      have h2 : (Q.take (P.length - 1))[i]? = Q[i]? := by
        rw [List.getElem?_take, if_pos hi']
      rw [h1, htake, h2]
    · -- the last previous term: a prefix of the corresponding new term
      have hieq : i = P.length - 1 := by omega
      subst hieq
      have hqlen : P.length - 1 < Q.length := by omega
      rw [List.getElem?_eq_getElem hi] at hp
      have hplast : P[P.length - 1] = plast := Option.some.inj hp
      rw [List.getElem?_eq_getElem hqlen] at hq
      have hqlast : Q[P.length - 1] = qlast := Option.some.inj hq
      have hocc := hQany qlast (by rw [← hqlast]; exact List.getElem_mem hqlen)
      rw [List.any_eq_true] at hocc ⊢
      obtain ⟨s, hs, ho⟩ := hocc
      refine ⟨s, hs, ?_⟩
      rw [hplast]
      exact occursCI_of_isPrefixOf hpre ho

theorem splitWsAux_all_empty :
    ∀ {s : List Byte}, (∀ b ∈ s, isWhitespaceByte b = true) →
      ∀ c ∈ splitWsAux s [], c = [] := by
  intro s
  induction s with
  | nil =>
    intro _ c hc
    rw [splitWsAux] at hc
    rcases List.mem_cons.mp hc with rfl | h
    · rfl
    · cases h
  | cons b rest ih =>
    intro hws c hc
    rw [splitWsAux, if_pos (hws b (List.mem_cons_self _ _))] at hc
    rcases List.mem_cons.mp hc with rfl | h
    · rfl
    · exact ih (fun b' hb' => hws b' (List.mem_cons_of_mem _ hb')) c h

/-- An empty or all-whitespace raw query extracts to the empty term
sequence. -/
theorem extract_search_terms_all_ws {s : List Byte}
    (h : ∀ b ∈ s, isWhitespaceByte b = true) : extract_search_terms s = [] := by
  have hnil : (splitWsAux s []).filter (fun t => !t.isEmpty) = [] := by
    rw [List.filter_eq_nil_iff]
    intro c hc
    rw [splitWsAux_all_empty h c hc]
    simp
  rw [extract_search_terms, hnil]
  rfl

/-- `Index::change` with an empty term sequence resets both stored terms
and stored results. -/
theorem change_empty_terms (corpus : List FeatureData) (st : SessionState) :
    change corpus st [] = ⟨[], []⟩ := rfl

/- ### Witness corpora (concrete inputs for the claim theorems) -/

/-- A feature titled `"ab"`, with no flag and no items. -/
def featW : FeatureData := { title := [97, 98] }

/-- A one-version corpus holding just `featW`. -/
def tW : FeatureToml :=
  { versions := [{ version := none, features := [featW] }],
    unstable := {} }

/-- The build state `buildIndexes` produces for `tW`. -/
def accW : BuildAcc :=
  { monogram_index := [([97], [0]), ([98], [0])],
    bigram_index := [([97, 98], [0])],
    trigram_index := [],
    versions := [],
    feat_idx := 1 }

/-- A feature titled `"A"` (upper case). -/
def featA : FeatureData := { title := [65] }

/-- A one-version corpus holding just `featA`. -/
def tA : FeatureToml :=
  { versions := [{ version := none, features := [featA] }],
    unstable := {} }

/-- A feature whose title is a single backtick. -/
def featC3 : FeatureData := { title := [96] }

/-- A one-version corpus holding just `featC3`. -/
def tC3 : FeatureToml :=
  { versions := [{ version := none, features := [featC3] }],
    unstable := {} }

/-- A corpus whose only feature (titled `"a"`) sits in the `unstable`
list; the `versions` list is empty. -/
def tC4 : FeatureToml :=
  { versions := [],
    unstable := { version := none, features := [{ title := [97] }] } }

/-- The candidate set computed from a freshly built corpus (a sentinel
non-empty list if the build fails, so an empty result can only come from
an empty candidate set). -/
def candOfBuild (t : FeatureToml) (q : ByteStr) : List Nat :=
  match buildIndexes t with
  | Except.ok acc => candidates acc q
  | Except.error _ => [0]

/-- The monogram accumulator of a freshly built corpus (a sentinel
non-empty map if the build fails). -/
def monoOfBuild (t : FeatureToml) : GramIndex :=
  match buildIndexes t with
  | Except.ok acc => acc.monogram_index
  | Except.error _ => [([0], [0])]

/- ### Claim theorems -/

/-- C1: for every feature of the corpus, every width `n ∈ {1,2,3}` and
every width-`n` window of a searchable field whose bytes are all printable
ASCII graphic characters other than backtick, the feature's index appears
in the width-`n` index entry for that gram; conversely, every feature
index in the entry for a gram `g` belongs to a feature having `g` as a
contiguous byte substring of at least one searchable field. -/
theorem spec_C1 (t : FeatureToml) (acc : BuildAcc)
    (h : buildIndexes t = Except.ok acc) (n : Nat) (hn : n = 1 ∨ n = 2 ∨ n = 3) :
    (∀ fidx f, (allFeatures t)[fidx]? = some f →
      ∀ s ∈ searchStrings f, ∀ g ∈ windows n s, g.all qualifiesByte = true →
        fidx ∈ lookupGram g (nthIndex acc n)) ∧
    (∀ g fidx, fidx ∈ lookupGram g (nthIndex acc n) →
      ∃ f, (allFeatures t)[fidx]? = some f ∧ ∃ s ∈ searchStrings f, g <:+: s) := by
  obtain ⟨hInv, hidx, hc1, hc2, hc3⟩ := buildIndexes_char h
  have hchar : ∀ g j, (j ∈ lookupGram g (nthIndex acc n) ↔
      ∃ f, (allFeatures t)[j]? = some f ∧ featHasGram n f g) := by
    rcases hn with rfl | rfl | rfl
    · exact hc1
    · exact hc2
    · exact hc3
  constructor
  · intro fidx f hf s hs g hg hq
    exact (hchar g fidx).mpr ⟨f, hf, s, hs, hg, hq⟩
  · intro g fidx hmem
    obtain ⟨f, hf, s, hs, hw, hq⟩ := (hchar g fidx).mp hmem
    have hn1 : 1 ≤ n := by rcases hn with rfl | rfl | rfl <;> omega
    exact ⟨f, hf, s, hs, ((mem_windows_iff hn1).mp hw).2⟩

theorem spec_C1_witness :
    (∀ fidx f, (allFeatures tW)[fidx]? = some f →
      ∀ s ∈ searchStrings f, ∀ g ∈ windows 2 s, g.all qualifiesByte = true →
        fidx ∈ lookupGram g (nthIndex accW 2)) ∧
    (∀ g fidx, fidx ∈ lookupGram g (nthIndex accW 2) →
      ∃ f, (allFeatures tW)[fidx]? = some f ∧ ∃ s ∈ searchStrings f, g <:+: s) :=
  spec_C1 tW accW rfl 2 (Or.inr (Or.inl rfl))

/-- C2 (counterexample): the claim fails because the index is built from
the raw field bytes while terms are compared case-insensitively.  The
lowercase term `"a"` occurs case-insensitively in the title `"A"`, but the
candidate set the modelled retriever computes for it from the built index
is empty, so feature 0 is a false negative. -/
theorem spec_C2_cex :
    occursCI [97] [65] = true ∧ featA.title = [65] ∧
      (buildIndexes tA).isOk = true ∧ candOfBuild tA [97] = [] := by
  decide

/-- C2 (amended): retrieval is sound for case-sensitive containment: if a
non-empty term `q` whose bytes all qualify occurs as an exact contiguous
substring of a searchable field of the feature at index `fidx`, then
`fidx` is in the candidate set for `q`. -/
theorem spec_C2_amended (t : FeatureToml) (acc : BuildAcc)
    (h : buildIndexes t = Except.ok acc) (fidx : Nat) (f : FeatureData)
    (hf : (allFeatures t)[fidx]? = some f) (q : ByteStr) (hq : q ≠ [])
    (hqual : q.all qualifiesByte = true) (s : ByteStr) (hs : s ∈ searchStrings f)
    (hsub : q <:+: s) : fidx ∈ candidates acc q := by
  obtain ⟨hInv, hidx, hc1, hc2, hc3⟩ := buildIndexes_char h
  have hq1 : 1 ≤ q.length := by
    cases q with
    | nil => exact absurd rfl hq
    | cons _ _ => simp
  have hw1 : 1 ≤ min 3 q.length := by omega
  have hwq : min 3 q.length ≤ q.length := Nat.min_le_right _ _
  have hw123 : min 3 q.length = 1 ∨ min 3 q.length = 2 ∨ min 3 q.length = 3 := by
    omega
  have hchar : ∀ g j, (j ∈ lookupGram g (nthIndex acc (min 3 q.length)) ↔
      ∃ f', (allFeatures t)[j]? = some f' ∧ featHasGram (min 3 q.length) f' g) := by
    rcases hw123 with h1 | h1 | h1 <;> rw [h1]
    · exact hc1
    · exact hc2
    · exact hc3
  have hall : ∀ g ∈ windows (min 3 q.length) q,
      fidx ∈ lookupGram g (nthIndex acc (min 3 q.length)) := by
    intro g hg
    obtain ⟨hlen, hinf⟩ := (mem_windows_iff hw1).mp hg
    have hginf : g <:+: s := hinf.trans hsub
    have hgq : g.all qualifiesByte = true := by
      rw [List.all_eq_true] at hqual ⊢
      intro b hb
      exact hqual b (hinf.sublist.subset hb)
    have hgw : g ∈ windows (min 3 q.length) s := (mem_windows_iff hw1).mpr ⟨hlen, hginf⟩
    exact (hchar g fidx).mpr ⟨f, hf, s, hs, hgw, hgq⟩
  have hPS : PostingsSorted (nthIndex acc (min 3 q.length)) := by
    rcases hw123 with h1 | h1 | h1 <;> rw [h1]
    · exact hInv.2.2.2.1
    · exact hInv.2.2.2.2.1
    · exact hInv.2.2.2.2.2.1
  cases hwin : windows (min 3 q.length) q with
  | nil =>
    exfalso
    have hmem : q.take (min 3 q.length) ∈ windows (min 3 q.length) q := by
      apply (mem_windows_iff hw1).mpr
      constructor
      · rw [List.length_take]
        exact Nat.min_eq_left hwq
      · exact (List.take_prefix _ _).isInfix
    rw [hwin] at hmem
    cases hmem
  | cons g0 gs =>
    have hg0 : g0 ∈ windows (min 3 q.length) q := by
      rw [hwin]
      exact List.mem_cons_self _ _
    have hgs : ∀ g ∈ gs, g ∈ windows (min 3 q.length) q := by
      intro g hg
      rw [hwin]
      exact List.mem_cons_of_mem _ hg
    simp only [candidates, hwin]
    rw [mem_foldl_interSorted hPS (lookupGram_pairwise hPS g0)]
    exact ⟨hall g0 hg0, fun g hg => hall g (hgs g hg)⟩

theorem spec_C2_amended_witness : (0 : Nat) ∈ candidates accW [98] :=
  spec_C2_amended tW accW rfl 0 featW rfl [98] (by decide) (by decide)
    [97, 98] (by decide) (by decide)

/-- C3 (counterexample): a backtick in the title does not fail
construction — the `assert!` in `generate_data` checks only the item
strings, so `generate_data` succeeds on a feature whose title is a single
backtick. -/
theorem spec_C3_cex :
    (96 : Byte) ∈ featC3.title ∧ (generate_data tC3).isOk = true := by
  decide

/-- C3 (amended): construction fails exactly when some item string of some
processed feature contains a backtick; backticks in the title or flag are
not checked. -/
theorem spec_C3_amended (t : FeatureToml) :
    (generate_data t).isOk = true ↔
      ∀ f ∈ allFeatures t, ∀ it ∈ f.items, (96 : Byte) ∉ it :=
  generate_data_isOk_iff

/-- C4 (counterexample): the builder iterates only the `versions` feature
lists; a feature that sits in the `unstable` list is never scanned, so its
qualifying gram `"a"` is absent from the monogram index even though the
build succeeds. -/
theorem spec_C4_cex :
    tC4.unstable.features.map FeatureData.title = [[97]] ∧
    qualifiesByte 97 = true ∧
    (buildIndexes tC4).isOk = true ∧
    monoOfBuild tC4 = [] := by
  decide

/-- C4 (amended): every feature of every `versions` feature list is fully
scanned: each qualifying width-`n` window of each of its searchable fields
is recorded for the feature's index in the width-`n` inverted index.  The
`unstable` feature list is not processed. -/
theorem spec_C4_amended (t : FeatureToml) (acc : BuildAcc)
    (h : buildIndexes t = Except.ok acc) (n : Nat) (hn : n = 1 ∨ n = 2 ∨ n = 3)
    (fidx : Nat) (f : FeatureData) (hf : (allFeatures t)[fidx]? = some f)
    (s : ByteStr) (hs : s ∈ searchStrings f) (g : ByteStr) (hg : g ∈ windows n s)
    (hq : g.all qualifiesByte = true) :
    fidx ∈ lookupGram g (nthIndex acc n) := by
  obtain ⟨hInv, hidx, hc1, hc2, hc3⟩ := buildIndexes_char h
  rcases hn with rfl | rfl | rfl
  · exact (hc1 g fidx).mpr ⟨f, hf, s, hs, hg, hq⟩
  · exact (hc2 g fidx).mpr ⟨f, hf, s, hs, hg, hq⟩
  · exact (hc3 g fidx).mpr ⟨f, hf, s, hs, hg, hq⟩

theorem spec_C4_amended_witness : (0 : Nat) ∈ lookupGram [97] (nthIndex accW 1) :=
  spec_C4_amended tW accW rfl 1 (Or.inl rfl) 0 featW rfl [97, 98] (by decide)
    [97] (by decide) (by decide)

/-- C5: the session reuses the cached result set as the search domain
exactly when the previous term list is non-empty, no longer than the new
one, and either equals the corresponding initial segment of the new list
or agrees on all but its last term, which must be a prefix of the
corresponding new term. -/
theorem spec_C5 (prev q : List ByteStr) :
    isRefinement prev q = true ↔
      prev ≠ [] ∧ prev.length ≤ q.length ∧
        (prev = q.take prev.length ∨
          (prev.take (prev.length - 1) = q.take (prev.length - 1) ∧
            ∃ plast qlast, prev[prev.length - 1]? = some plast ∧
              q[prev.length - 1]? = some qlast ∧ plast <+: qlast)) :=
  isRefinement_char prev q

/-- C6: when the new query refines the previous one, filtering the cached
result set yields exactly the same result list (same elements, same
order) as a full restart filtering the whole corpus. -/
theorem spec_C6 (corpus : List FeatureData) (P Q : List ByteStr)
    (st : SessionState) (hterms : st.current_search_terms = P)
    (hres : st.current_search_results = corpus.filter (fun f => does_match f P))
    (href : isRefinement P Q = true) :
    (change corpus st Q).current_search_results =
      corpus.filter (fun f => does_match f Q) := by
  obtain ⟨hne, hlen, -⟩ := (isRefinement_char P Q).mp href
  have hQne : ¬(Q.isEmpty = true) := by
    intro hempty
    rw [List.isEmpty_iff] at hempty
    rw [hempty, List.length_nil] at hlen
    exact hne (List.length_eq_zero.mp (by omega))
  simp only [change]
  rw [hterms, if_pos href, if_neg hQne, hres, List.filter_filter]
  apply List.filter_congr
  intro f _
  cases hq : does_match f Q with
  | false =>
    rw [Bool.false_and]
  | true =>
    rw [does_match_of_refinement href hq, Bool.true_and]

theorem spec_C6_witness :
    (change [featW] ⟨[[97]], List.filter (fun f => does_match f [[97]]) [featW]⟩
        [[97, 98]]).current_search_results =
      List.filter (fun f => does_match f [[97, 98]]) [featW] :=
  spec_C6 [featW] [[97]] [[97, 98]]
    ⟨[[97]], List.filter (fun f => does_match f [[97]]) [featW]⟩ rfl rfl (by decide)

/-- C7: in every built index, the postings list stored for every gram is
strictly ascending in feature index, hence duplicate-free. -/
theorem spec_C7 (t : FeatureToml) (acc : BuildAcc)
    (h : buildIndexes t = Except.ok acc) (n : Nat) (hn : n = 1 ∨ n = 2 ∨ n = 3) :
    ∀ kv ∈ nthIndex acc n, List.Pairwise (· < ·) kv.2 ∧ kv.2.Nodup := by
  obtain ⟨hInv, -⟩ := buildIndexes_char h
  have hPS : PostingsSorted (nthIndex acc n) := by
    rcases hn with rfl | rfl | rfl
    · exact hInv.2.2.2.1
    · exact hInv.2.2.2.2.1
    · exact hInv.2.2.2.2.2.1
  intro kv hkv
  have hp := hPS kv hkv
  exact ⟨hp, hp.imp (fun hlt => Nat.ne_of_lt hlt)⟩

theorem spec_C7_witness :
    List.Pairwise (· < ·) (([97], [0]) : ByteStr × List Nat).2 ∧
      (([97], [0]) : ByteStr × List Nat).2.Nodup :=
  spec_C7 tW accW rfl 1 (Or.inl rfl) ([97], [0]) (by decide)

/-- C8: index construction is deterministic.  Two successful runs on the
same corpus yield the same build state, whose accumulators are key-sorted;
moreover the sorted entry sequence is canonical: any key-sorted
accumulator that stores the same entry for every gram is identical as an
emitted sequence, so equal gram-to-postings mappings are always emitted in
the same (ascending key) order. -/
theorem spec_C8 (t : FeatureToml) (acc acc' : BuildAcc)
    (h : buildIndexes t = Except.ok acc) (h' : buildIndexes t = Except.ok acc') :
    acc = acc' ∧
    SortedKeys acc.monogram_index ∧ SortedKeys acc.bigram_index ∧
      SortedKeys acc.trigram_index ∧
    (∀ m, SortedKeys m →
      (∀ g, findEntry g m = findEntry g acc.monogram_index) →
        m = acc.monogram_index) ∧
    (∀ m, SortedKeys m →
      (∀ g, findEntry g m = findEntry g acc.bigram_index) →
        m = acc.bigram_index) ∧
    (∀ m, SortedKeys m →
      (∀ g, findEntry g m = findEntry g acc.trigram_index) →
        m = acc.trigram_index) := by
  obtain ⟨hInv, -⟩ := buildIndexes_char h
  have heq : acc = acc' := by
    rw [h] at h'
    exact Except.ok.inj h'
  refine ⟨heq, hInv.1, hInv.2.1, hInv.2.2.1, ?_, ?_, ?_⟩
  · intro m hm hext
    exact sortedKeys_ext hm hInv.1 hext
  · intro m hm hext
    exact sortedKeys_ext hm hInv.2.1 hext
  · intro m hm hext
    exact sortedKeys_ext hm hInv.2.2.1 hext

theorem spec_C8_witness :
    accW = accW ∧
    SortedKeys accW.monogram_index ∧ SortedKeys accW.bigram_index ∧
      SortedKeys accW.trigram_index ∧
    (∀ m, SortedKeys m →
      (∀ g, findEntry g m = findEntry g accW.monogram_index) →
        m = accW.monogram_index) ∧
    (∀ m, SortedKeys m →
      (∀ g, findEntry g m = findEntry g accW.bigram_index) →
        m = accW.bigram_index) ∧
    (∀ m, SortedKeys m →
      (∀ g, findEntry g m = findEntry g accW.trigram_index) →
        m = accW.trigram_index) :=
  spec_C8 tW accW accW rfl rfl

/-- C9: whenever the extracted term sequence of a query is empty (in
particular for an all-whitespace or empty input), the session stores an
empty term list and an empty result list, regardless of its previous
state. -/
theorem spec_C9 (corpus : List FeatureData) (st : SessionState) (s : List Byte)
    (hws : ∀ b ∈ s, isWhitespaceByte b = true) :
    change corpus st (extract_search_terms s) =
      { current_search_terms := [], current_search_results := [] } := by
  rw [extract_search_terms_all_ws hws]
  exact change_empty_terms corpus st

theorem spec_C9_witness :
    change [featW] ⟨[[97]], [featW]⟩ (extract_search_terms [32, 9]) =
      { current_search_terms := [], current_search_results := [] } :=
  spec_C9 [featW] ⟨[[97]], [featW]⟩ [32, 9] (by decide)

/-- C10: every key of the width-`n` accumulator has length exactly `n`
(`n ∈ {1,2,3}`), so flattening — in particular the `unreachable!` arms of
the bigram and trigram match — always succeeds. -/
theorem spec_C10 (t : FeatureToml) (acc : BuildAcc)
    (h : buildIndexes t = Except.ok acc) :
    KeysLen 1 acc.monogram_index ∧ KeysLen 2 acc.bigram_index ∧
      KeysLen 3 acc.trigram_index ∧
    (flattenMonogram acc.monogram_index).isOk = true ∧
    (flattenBigram acc.bigram_index).isOk = true ∧
    (flattenTrigram acc.trigram_index).isOk = true := by
  obtain ⟨hInv, -⟩ := buildIndexes_char h
  obtain ⟨-, -, -, -, -, -, l1, l2, l3⟩ := hInv
  obtain ⟨m1, hm1⟩ := flattenMonogram_isOk l1
  obtain ⟨m2, hm2⟩ := flattenBigram_isOk l2
  obtain ⟨m3, hm3⟩ := flattenTrigram_isOk l3
  refine ⟨l1, l2, l3, ?_, ?_, ?_⟩
  · rw [hm1]
    rfl
  · rw [hm2]
    rfl
  · rw [hm3]
    rfl

theorem spec_C10_witness :
    KeysLen 1 accW.monogram_index ∧ KeysLen 2 accW.bigram_index ∧
      KeysLen 3 accW.trigram_index ∧
    (flattenMonogram accW.monogram_index).isOk = true ∧
    (flattenBigram accW.bigram_index).isOk = true ∧
    (flattenTrigram accW.trigram_index).isOk = true :=
  spec_C10 tW accW rfl

end CanIUse
